/-
Verification of the PufferPanel Discord bot core against its specification.

Shallow embedding of the Python sources:
  * `utils/rate_limiter.py`   — `GlobalActionLock` (mutual exclusion + cooldown)
  * `services/log_sync.py`    — buffer, flush, rotation, message splitting
  * `services/websocket_client.py` — reconnect backoff, log extraction
  * `utils/state.py`          — persisted `BotState` and `update_logs`

Python strings that are split and re-joined are embedded as `List Char`;
strings used only as opaque tokens (action kinds, dates, JSON field names)
are embedded as `String`.  Python floats (wall-clock times, delays) are
embedded as `ℚ`: every float is a rational and the code performs only
subtraction, comparison, doubling and `min` on them, all exact.
Async methods are embedded as atomic state transitions: the bot runs on a
single asyncio event loop and none of the embedded critical sections
contains an `await` other than the non-blocking lock acquisition itself.
-/
import Mathlib

/-! ## `utils/rate_limiter.py` — `GlobalActionLock` -/

/-- State of `GlobalActionLock`: `cooldown_sec`, the asyncio lock's
held/free bit, `_last_action_time` and `_current_action`. -/
structure GlobalActionLock where
  cooldown_sec : ℚ
  locked : Bool
  last_action_time : ℚ
  current_action : Option String
deriving Repr, DecidableEq

/-- `GlobalActionLock.__init__`: unlocked, `_last_action_time = 0`,
no current action. -/
def GlobalActionLock.init (cooldown : ℚ) : GlobalActionLock :=
  { cooldown_sec := cooldown, locked := false, last_action_time := 0,
    current_action := none }

/-- `GlobalActionLock.acquire(action)` at wall-clock time `now`.
Returns the post state and the `(success, blocking_action_name)` pair.
The Python cooldown branch takes the asyncio lock and releases it again
before returning; since no `await` separates the two, the net transition
is the identity on the state, which is how it is embedded here. -/
def GlobalActionLock.acquire (s : GlobalActionLock) (action : String)
    (now : ℚ) : GlobalActionLock × Bool × Option String :=
  if s.locked then
    (s, false, s.current_action)
  else if now - s.last_action_time < s.cooldown_sec then
    (s, false, some "cooldown")
  else
    ({ s with
        locked := true
        current_action := some action
        last_action_time := now }, true, none)

/-- `GlobalActionLock.release()`: clears `_current_action` and releases
the lock if held (no-op on the bit when already free). -/
def GlobalActionLock.release (s : GlobalActionLock) : GlobalActionLock :=
  { s with current_action := none, locked := false }

/-- `GlobalActionLock.get_remaining_cooldown()` at time `now`. -/
def GlobalActionLock.get_remaining_cooldown (s : GlobalActionLock)
    (now : ℚ) : ℚ :=
  max 0 (s.cooldown_sec - (now - s.last_action_time))

/-- A call against the lock: an `acquire(action)` at a given time, or a
`release()`. -/
inductive LockEvent where
  | acq (action : String) (now : ℚ)
  | rel
deriving Repr, DecidableEq

/-- One call applied to the lock state (the result value is dropped). -/
def lockStep (s : GlobalActionLock) : LockEvent → GlobalActionLock
  | .acq a t => (s.acquire a t).1
  | .rel => s.release

/-- A finite sequence of calls applied to the lock state. -/
def runLock (s : GlobalActionLock) (tr : List LockEvent) : GlobalActionLock :=
  tr.foldl lockStep s

theorem runLock_append (s : GlobalActionLock) (t1 t2 : List LockEvent) :
    runLock s (t1 ++ t2) = runLock (runLock s t1) t2 :=
  List.foldl_append lockStep s t1 t2

/-- A denied `acquire` (both the lock-held and the cooldown branch)
leaves the state unchanged. -/
theorem acquire_denied_state_eq (s : GlobalActionLock) (a : String) (t : ℚ)
    (h : (s.acquire a t).2.1 = false) : (s.acquire a t).1 = s := by
  unfold GlobalActionLock.acquire at *
  by_cases hl : s.locked
  · simp [hl]
  · by_cases hc : t - s.last_action_time < s.cooldown_sec
    · simp [hl, hc]
    · simp [hl, hc] at h

/-- A granted `acquire` can only happen on an unlocked state. -/
theorem acquire_granted_not_locked (s : GlobalActionLock) (a : String)
    (t : ℚ) (h : (s.acquire a t).2.1 = true) : s.locked = false := by
  unfold GlobalActionLock.acquire at h
  by_cases hl : s.locked
  · simp [hl] at h
  · simpa using hl

/-- A granted `acquire` leaves the lock held. -/
theorem acquire_granted_locked (s : GlobalActionLock) (a : String)
    (t : ℚ) (h : (s.acquire a t).2.1 = true) :
    ((s.acquire a t).1).locked = true := by
  unfold GlobalActionLock.acquire at *
  by_cases hl : s.locked
  · simp [hl] at h
  · by_cases hc : t - s.last_action_time < s.cooldown_sec
    · simp [hl, hc] at h
    · simp [hl, hc]

/-- While the lock is held, only a `release` call can free it: any run
of calls that starts locked and ends unlocked contains a `rel`. -/
theorem rel_mem_of_unlock (t2 : List LockEvent) :
    ∀ s : GlobalActionLock, s.locked = true →
      (runLock s t2).locked = false → LockEvent.rel ∈ t2 := by
  induction t2 with
  | nil =>
    intro s hs hrun
    simp [runLock] at hrun
    rw [hrun] at hs
    exact absurd hs (by simp)
  | cons e t2 ih =>
    intro s hs hrun
    cases e with
    | rel => exact List.mem_cons_self _ _
    | acq a t =>
      have hstep : lockStep s (.acq a t) = s := by
        simp [lockStep, GlobalActionLock.acquire, hs]
      rw [runLock, List.foldl_cons, hstep] at hrun
      exact List.mem_cons_of_mem _ (ih s hs hrun)

/-- C1: at most one caller ever holds the global lock: whenever a call
sequence contains two granted `acquire`s, a `release` occurs strictly
between them — a second `acquire` while a grant is outstanding is never
granted, so no two grants are simultaneously outstanding. -/
theorem global_lock_mutual_exclusion (s0 : GlobalActionLock)
    (t1 t2 : List LockEvent) (a1 a2 : String) (τ1 τ2 : ℚ)
    (h1 : ((runLock s0 t1).acquire a1 τ1).2.1 = true)
    (h2 : ((runLock s0 (t1 ++ LockEvent.acq a1 τ1 :: t2)).acquire a2 τ2).2.1
          = true) :
    LockEvent.rel ∈ t2 := by
  have hs1 : (runLock (runLock s0 t1) (LockEvent.acq a1 τ1 :: t2))
      = runLock s0 (t1 ++ LockEvent.acq a1 τ1 :: t2) :=
    (runLock_append s0 t1 _).symm
  have hlocked : (lockStep (runLock s0 t1) (LockEvent.acq a1 τ1)).locked
      = true := acquire_granted_locked _ _ _ h1
  have hunlocked : (runLock s0 (t1 ++ LockEvent.acq a1 τ1 :: t2)).locked
      = false := acquire_granted_not_locked _ _ _ h2
  rw [← hs1, runLock, List.foldl_cons] at hunlocked
  exact rel_mem_of_unlock t2 _ hlocked hunlocked

/-- Witness for C1 on a concrete call sequence: a grant at t=100, a
release, then a second grant at t=200. -/
theorem global_lock_mutual_exclusion_witness :
    LockEvent.rel ∈ [LockEvent.rel] :=
  global_lock_mutual_exclusion (GlobalActionLock.init 10) [] [.rel]
    "start" "stop" 100 200
    (by norm_num [runLock, GlobalActionLock.init, GlobalActionLock.acquire])
    (by norm_num [runLock, lockStep, GlobalActionLock.init,
      GlobalActionLock.acquire, GlobalActionLock.release])

/-- C2: `acquire` behaves exactly as specified, by cases: lock already
held → `(false, currentHolder)` and no state change; free but within
cooldown → `(false, "cooldown")` and no state change; otherwise the
grant time and holder are recorded and the result is `(true, none)`. -/
theorem acquire_spec (s : GlobalActionLock) (a : String) (now : ℚ) :
    (s.locked = true → s.acquire a now = (s, false, s.current_action)) ∧
    (s.locked = false → now - s.last_action_time < s.cooldown_sec →
      s.acquire a now = (s, false, some "cooldown")) ∧
    (s.locked = false → ¬ now - s.last_action_time < s.cooldown_sec →
      s.acquire a now =
        ({ s with
            locked := true
            current_action := some a
            last_action_time := now }, true, none)) := by
  refine ⟨fun hl => ?_, fun hl hc => ?_, fun hl hc => ?_⟩
  · simp [GlobalActionLock.acquire, hl]
  · simp [GlobalActionLock.acquire, hl, hc]
  · simp [GlobalActionLock.acquire, hl, hc]

/-- Witness for C2: all three branches evaluated at concrete states. -/
theorem acquire_spec_witness :
    ((GlobalActionLock.mk 10 true 0 (some "start")).acquire "stop" 50
      = (GlobalActionLock.mk 10 true 0 (some "start"), false, some "start")) ∧
    ((GlobalActionLock.mk 10 false 0 none).acquire "stop" 5
      = (GlobalActionLock.mk 10 false 0 none, false, some "cooldown")) ∧
    ((GlobalActionLock.mk 10 false 0 none).acquire "stop" 50
      = (GlobalActionLock.mk 10 true 50 (some "stop"), true, none)) :=
  ⟨(acquire_spec _ "stop" 50).1 rfl,
   (acquire_spec _ "stop" 5).2.1 rfl (by norm_num),
   by
     have h := (acquire_spec (GlobalActionLock.mk 10 false 0 none) "stop"
       50).2.2 rfl (by norm_num)
     simpa using h⟩

/-- C3: after a granted `acquire` at time `g` followed by `release`, an
`acquire` of any kind at `g + d` with `0 ≤ d < cooldown_sec` returns
`(false, "cooldown")`, and one with `d ≥ cooldown_sec` is granted. -/
theorem cooldown_window_spec (s : GlobalActionLock) (a b : String)
    (g d : ℚ) (hg : (s.acquire a g).2.1 = true) :
    (d < s.cooldown_sec →
      (((s.acquire a g).1.release).acquire b (g + d)).2
        = (false, some "cooldown")) ∧
    (s.cooldown_sec ≤ d →
      (((s.acquire a g).1.release).acquire b (g + d)).2 = (true, none)) := by
  have hl : s.locked = false := acquire_granted_not_locked _ _ _ hg
  have hc : ¬ g - s.last_action_time < s.cooldown_sec := by
    intro hcon
    simp [GlobalActionLock.acquire, hl, hcon] at hg
  have hstate : (s.acquire a g).1
      = { s with
            locked := true
            current_action := some a
            last_action_time := g } := by
    simp [GlobalActionLock.acquire, hl, hc]
  constructor
  · intro hd
    rw [hstate]
    simp [GlobalActionLock.release, GlobalActionLock.acquire, hd]
  · intro hd
    rw [hstate]
    simp [GlobalActionLock.release, GlobalActionLock.acquire, not_lt.mpr hd]

/-- Witness for C3, the spec scenario shifted to wall-clock times past
the initial cooldown (as `time.time()` is in the code): cooldown 10s,
grant at t=100 (`t=0` of the scenario), `acquire "stop"` 3s later is
denied with reason `"cooldown"`, `acquire "stop"` 11s later is
granted. -/
theorem cooldown_window_spec_witness :
    (((((GlobalActionLock.init 10).acquire "start" 100).1.release).acquire
        "stop" (100 + 3)).2 = (false, some "cooldown")) ∧
    (((((GlobalActionLock.init 10).acquire "start" 100).1.release).acquire
        "stop" (100 + 11)).2 = (true, none)) :=
  ⟨(cooldown_window_spec (GlobalActionLock.init 10) "start" "stop" 100 3
      (by norm_num [GlobalActionLock.init, GlobalActionLock.acquire])).1
      (by norm_num [GlobalActionLock.init]),
   (cooldown_window_spec (GlobalActionLock.init 10) "start" "stop" 100 11
      (by norm_num [GlobalActionLock.init, GlobalActionLock.acquire])).2
      (by norm_num [GlobalActionLock.init])⟩

/-- C9: a denied `acquire` (either reason) leaves the coordinator state
untouched: the full state is unchanged, so in particular the last-grant
timestamp and `get_remaining_cooldown` at every later instant are
unaffected. -/
theorem acquire_denied_frame (s : GlobalActionLock) (a : String)
    (now : ℚ) (h : (s.acquire a now).2.1 = false) :
    (s.acquire a now).1 = s ∧
    ((s.acquire a now).1).last_action_time = s.last_action_time ∧
    (∀ t : ℚ, ((s.acquire a now).1).get_remaining_cooldown t
      = s.get_remaining_cooldown t) := by
  have he := acquire_denied_state_eq s a now h
  exact ⟨he, by rw [he], fun t => by rw [he]⟩

/-- Witness for C9: a concrete denied `acquire` (cooldown branch). -/
theorem acquire_denied_frame_witness :
    (((GlobalActionLock.init 10).acquire "start" 5).1
      = GlobalActionLock.init 10) ∧
    ((((GlobalActionLock.init 10).acquire "start" 5).1).last_action_time
      = (GlobalActionLock.init 10).last_action_time) ∧
    (∀ t : ℚ, (((GlobalActionLock.init 10).acquire "start" 5).1).get_remaining_cooldown t
      = (GlobalActionLock.init 10).get_remaining_cooldown t) :=
  acquire_denied_frame (GlobalActionLock.init 10) "start" 5
    (by norm_num [GlobalActionLock.init, GlobalActionLock.acquire])

/-! ## `utils/state.py` — persisted `BotState` and `update_logs` -/

/-- The persisted `BotState` dataclass. -/
structure BotState where
  dashboard_message_id : Option ℕ
  logs_enabled : Bool
  current_thread_id : Option ℕ
  current_date : Option String
  last_action_time : Option String
  last_action_user : Option String
  last_action_type : Option String
deriving Repr, DecidableEq

/-- `StateManager.update_logs(enabled, thread_id=None, date=None)`:
sets `logs_enabled`; overwrites `current_thread_id` / `current_date`
only when the corresponding optional argument is not `None`. -/
def update_logs (enabled : Bool) (thread_id : Option ℕ)
    (date : Option String) (s : BotState) : BotState :=
  { s with
      logs_enabled := enabled
      current_thread_id :=
        match thread_id with
        | some t => some t
        | none => s.current_thread_id
      current_date :=
        match date with
        | some d => some d
        | none => s.current_date }

/-- C10: `update_logs` with `thread_id` and `date` omitted changes only
`logs_enabled`; every other persisted field is unchanged, so the
`update_logs(enabled=False)` call in `LogSyncService.stop()` preserves
the recorded thread id and date for a later same-day resume. -/
theorem update_logs_none_frame (e : Bool) (s : BotState) :
    update_logs e none none s =
      { s with logs_enabled := e } ∧
    (update_logs e none none s).current_thread_id = s.current_thread_id ∧
    (update_logs e none none s).current_date = s.current_date ∧
    (update_logs e none none s).dashboard_message_id
      = s.dashboard_message_id ∧
    (update_logs e none none s).last_action_time = s.last_action_time ∧
    (update_logs e none none s).last_action_user = s.last_action_user ∧
    (update_logs e none none s).last_action_type = s.last_action_type :=
  ⟨rfl, rfl, rfl, rfl, rfl, rfl, rfl⟩

/-! ## `services/websocket_client.py` — reconnect backoff -/

/-- Outcome of one `connect()` attempt inside `_reconnect_loop`. -/
inductive ConnAttempt where
  | success
  | failure
deriving Repr, DecidableEq

/-- How `_reconnect_loop` updates `self._reconnect_delay` after one
attempt: on failure `min(delay * 2, 60.0)` (`_max_reconnect_delay`),
on success a reset to `1.0`. -/
def reconnectStep (delay : ℚ) : ConnAttempt → ℚ
  | .failure => min (delay * 2) 60
  | .success => 1

/-- The waits the reconnect loop performs for a run of attempt
outcomes: it sleeps the current delay before each attempt, then updates
the delay from the outcome. -/
def reconnectWaits (delay : ℚ) : List ConnAttempt → List ℚ
  | [] => []
  | a :: rest => delay :: reconnectWaits (reconnectStep delay a) rest

theorem reconnectStep_failure_pow (j : ℕ) :
    reconnectStep (min ((2 : ℚ) ^ j) 60) .failure
      = min ((2 : ℚ) ^ (j + 1)) 60 := by
  unfold reconnectStep
  rcases le_total ((2 : ℚ) ^ j) 60 with h | h
  · rw [min_eq_left h, pow_succ]
  · rw [min_eq_right h]
    have hmono : (2 : ℚ) ^ j ≤ (2 : ℚ) ^ (j + 1) :=
      pow_le_pow_right₀ (by norm_num) (Nat.le_succ j)
    have h60 : (60 : ℚ) ≤ (2 : ℚ) ^ (j + 1) := le_trans h hmono
    rw [min_eq_right h60]
    exact min_eq_right (by norm_num)

theorem reconnectWaits_failures (n j : ℕ) :
    reconnectWaits (min ((2 : ℚ) ^ j) 60) (List.replicate n .failure)
      = (List.range n).map (fun k => min ((2 : ℚ) ^ (j + k)) 60) := by
  induction n generalizing j with
  | zero => simp [reconnectWaits]
  | succ n ih =>
    rw [List.replicate_succ, reconnectWaits, reconnectStep_failure_pow,
      ih (j + 1), List.range_succ_eq_map]
    simp only [List.map_cons, List.map_map]
    congr 1
    apply List.map_congr_left
    intro k _
    simp only [Function.comp_apply]
    have hjk : j + 1 + k = j + (k + 1) := by omega
    rw [hjk]

/-- C7: starting from the reset delay `1.0` (set by `start()` and after
any successful connect), the waits for `n` consecutive failed attempts
are exactly `min (2^k) 60` for `k = 0, 1, ..., n-1` — i.e.
1s, 2s, 4s, ... doubling and capped at 60s — and any successful connect
resets the stored delay to 1s. -/
theorem reconnect_backoff_spec (n : ℕ) (d : ℚ) :
    reconnectWaits 1 (List.replicate n .failure)
      = (List.range n).map (fun k => min ((2 : ℚ) ^ k) 60) ∧
    reconnectStep d .success = 1 := by
  constructor
  · have h := reconnectWaits_failures n 0
    have h1 : min ((2 : ℚ) ^ (0 : ℕ)) 60 = 1 := by norm_num
    rw [h1] at h
    rw [h]
    apply List.map_congr_left
    intro k _
    rw [Nat.zero_add]
  · rfl

/-! ## `services/log_sync.py` — `_split_message`

Python strings are embedded as `List Char` here, since `_split_message`
splits and re-joins on `"\n"`. -/

/-- Python `text.split("\n")`: the segments between newline characters;
`"".split("\n") == [""]`, and empty segments are kept. -/
def splitOnNl : List Char → List (List Char)
  | [] => [[]]
  | c :: rest =>
    let s := splitOnNl rest
    if c = '\n' then [] :: s
    else (c :: s.headD []) :: s.tail

/-- Python `"\n".join(lines)`. -/
def joinNl : List (List Char) → List Char
  | [] => []
  | [l] => l
  | l :: l2 :: ls => l ++ '\n' :: joinNl (l2 :: ls)

theorem splitOnNl_ne_nil (l : List Char) : splitOnNl l ≠ [] := by
  cases l with
  | nil => simp [splitOnNl]
  | cons c rest =>
    unfold splitOnNl
    by_cases h : c = '\n' <;> simp [h]

theorem joinNl_splitOnNl (l : List Char) : joinNl (splitOnNl l) = l := by
  induction l with
  | nil => simp [splitOnNl, joinNl]
  | cons c rest ih =>
    unfold splitOnNl
    by_cases h : c = '\n'
    · subst h
      simp only [if_pos rfl]
      obtain ⟨g, gs, hgs⟩ : ∃ g gs, splitOnNl rest = g :: gs := by
        cases hs : splitOnNl rest with
        | nil => exact absurd hs (splitOnNl_ne_nil rest)
        | cons g gs => exact ⟨g, gs, rfl⟩
      rw [hgs]
      rw [hgs] at ih
      simpa [joinNl] using ih
    · simp only [if_neg h]
      obtain ⟨g, gs, hgs⟩ : ∃ g gs, splitOnNl rest = g :: gs := by
        cases hs : splitOnNl rest with
        | nil => exact absurd hs (splitOnNl_ne_nil rest)
        | cons g gs => exact ⟨g, gs, rfl⟩
      rw [hgs]
      rw [hgs] at ih
      simp only [List.headD_cons, List.tail_cons]
      cases gs with
      | nil => simpa [joinNl] using ih
      | cons g2 gs2 =>
        rw [joinNl] at ih ⊢
        rw [List.cons_append, ih]

theorem splitOnNl_no_nl (l : List Char) :
    ∀ g ∈ splitOnNl l, '\n' ∉ g := by
  induction l with
  | nil => simp [splitOnNl]
  | cons c rest ih =>
    unfold splitOnNl
    by_cases h : c = '\n'
    · simp only [if_pos h]
      intro g hg
      rcases List.mem_cons.mp hg with hg | hg
      · subst hg; simp
      · exact ih g hg
    · simp only [if_neg h]
      obtain ⟨g0, gs, hgs⟩ : ∃ g0 gs, splitOnNl rest = g0 :: gs := by
        cases hs : splitOnNl rest with
        | nil => exact absurd hs (splitOnNl_ne_nil rest)
        | cons g0 gs => exact ⟨g0, gs, rfl⟩
      rw [hgs]
      intro g hg
      rcases List.mem_cons.mp hg with hg | hg
      · subst hg
        intro hmem
        rcases List.mem_cons.mp hmem with hc | hc
        · exact h hc.symm
        · exact ih g0 (by rw [hgs]; exact List.mem_cons_self _ _) hc
      · exact ih g (by rw [hgs]; exact List.mem_cons_of_mem _ hg)

theorem splitOnNl_of_no_nl (l : List Char) (h : '\n' ∉ l) :
    splitOnNl l = [l] := by
  induction l with
  | nil => simp [splitOnNl]
  | cons c rest ih =>
    unfold splitOnNl
    have hc : ¬ c = '\n' := fun hcon => h (by rw [hcon]; exact List.mem_cons_self _ _)
    simp only [if_neg hc]
    rw [ih (fun hm => h (List.mem_cons_of_mem _ hm))]
    simp

theorem splitOnNl_cons (c : Char) (rest : List Char) :
    splitOnNl (c :: rest) =
      if c = '\n' then [] :: splitOnNl rest
      else (c :: (splitOnNl rest).headD []) :: (splitOnNl rest).tail := rfl

theorem splitOnNl_append_nl (a b : List Char) :
    splitOnNl (a ++ '\n' :: b) = splitOnNl a ++ splitOnNl b := by
  induction a with
  | nil =>
    rw [List.nil_append, splitOnNl_cons]
    simp [splitOnNl]
  | cons c a ih =>
    rw [List.cons_append, splitOnNl_cons, splitOnNl_cons, ih]
    by_cases h : c = '\n'
    · simp [h]
    · simp only [if_neg h]
      obtain ⟨g0, gs, hgs⟩ : ∃ g0 gs, splitOnNl a = g0 :: gs := by
        cases hs : splitOnNl a with
        | nil => exact absurd hs (splitOnNl_ne_nil a)
        | cons g0 gs => exact ⟨g0, gs, rfl⟩
      rw [hgs]
      simp

/-- The `for line in lines` loop of `LogSyncService._split_message`,
with the accumulated `chunks` list and `current_chunk`.  Python
truthiness `if current_chunk:` is `cc ≠ []`. -/
def splitMessageLoop (maxLen : ℕ) :
    List (List Char) → List Char → List (List Char) → List (List Char)
  | [], cc, chunks => if cc ≠ [] then chunks ++ [cc] else chunks
  | line :: rest, cc, chunks =>
    if cc.length + line.length + 1 > maxLen then
      splitMessageLoop maxLen rest line
        (if cc ≠ [] then chunks ++ [cc] else chunks)
    else
      splitMessageLoop maxLen rest
        (if cc ≠ [] then cc ++ '\n' :: line else line) chunks

/-- `LogSyncService._split_message(text)`: reserves 10 characters of
`max_chars_per_post` for the code-block markers, returns `[text]` (or
`[]` for empty text) when it already fits, else runs the line loop. -/
def _split_message (max_chars_per_post : ℕ) (text : List Char) :
    List (List Char) :=
  let maxLen := max_chars_per_post - 10
  if text.length ≤ maxLen then (if text ≠ [] then [text] else [])
  else splitMessageLoop maxLen (splitOnNl text) [] []

/-- The same greedy packing as `splitMessageLoop` restricted to a
non-empty `current_chunk`, in direct (non-accumulator) form, used to
reason about the loop. -/
def packGreedy (maxLen : ℕ) (cur : List Char) :
    List (List Char) → List (List Char)
  | [] => [cur]
  | line :: rest =>
    if cur.length + line.length + 1 > maxLen then
      cur :: packGreedy maxLen line rest
    else
      packGreedy maxLen (cur ++ '\n' :: line) rest

theorem packGreedy_ne_nil (maxLen : ℕ) (ls : List (List Char)) :
    ∀ cur, packGreedy maxLen cur ls ≠ [] := by
  induction ls with
  | nil => intro cur; simp [packGreedy]
  | cons line rest ih =>
    intro cur
    unfold packGreedy
    by_cases h : cur.length + line.length + 1 > maxLen
    · simp [h]
    · simp only [if_neg h]
      exact ih _

theorem splitMessageLoop_eq_packGreedy (maxLen : ℕ) (ls : List (List Char)) :
    ∀ cur chunks, cur ≠ [] → (∀ l ∈ ls, l ≠ []) →
      splitMessageLoop maxLen ls cur chunks
        = chunks ++ packGreedy maxLen cur ls := by
  induction ls with
  | nil =>
    intro cur chunks hcur _
    simp [splitMessageLoop, packGreedy, hcur]
  | cons line rest ih =>
    intro cur chunks hcur hls
    have hline : line ≠ [] := hls line (List.mem_cons_self _ _)
    have hrest : ∀ l ∈ rest, l ≠ [] := fun l hl => hls l (List.mem_cons_of_mem _ hl)
    unfold splitMessageLoop packGreedy
    by_cases h : cur.length + line.length + 1 > maxLen
    · simp only [if_pos h, if_pos hcur]
      rw [ih line (chunks ++ [cur]) hline hrest, List.append_assoc]
      rfl
    · simp only [if_neg h, if_pos hcur]
      exact ih _ chunks (by simp) hrest

theorem joinNl_glue (a b : List Char) (ls : List (List Char)) :
    joinNl ((a ++ '\n' :: b) :: ls) = a ++ '\n' :: joinNl (b :: ls) := by
  cases ls with
  | nil => simp [joinNl]
  | cons c ls =>
    rw [joinNl, joinNl]
    simp

theorem joinNl_packGreedy (maxLen : ℕ) (ls : List (List Char)) :
    ∀ cur, joinNl (packGreedy maxLen cur ls) = joinNl (cur :: ls) := by
  induction ls with
  | nil => intro cur; rfl
  | cons line rest ih =>
    intro cur
    unfold packGreedy
    by_cases h : cur.length + line.length + 1 > maxLen
    · simp only [if_pos h]
      obtain ⟨c0, cs, hcs⟩ : ∃ c0 cs, packGreedy maxLen line rest = c0 :: cs := by
        cases hp : packGreedy maxLen line rest with
        | nil => exact absurd hp (packGreedy_ne_nil maxLen rest line)
        | cons c0 cs => exact ⟨c0, cs, rfl⟩
      rw [hcs, joinNl, ← hcs, ih line, joinNl]
    · simp only [if_neg h]
      rw [ih _, joinNl_glue]
      rfl

theorem packGreedy_budget (maxLen : ℕ) (ls : List (List Char)) :
    ∀ cur, cur.length ≤ maxLen → (∀ l ∈ ls, l.length ≤ maxLen) →
      ∀ c ∈ packGreedy maxLen cur ls, c.length ≤ maxLen := by
  induction ls with
  | nil =>
    intro cur hcur _ c hc
    rw [packGreedy] at hc
    rcases List.mem_singleton.mp hc with h
    rw [h]; exact hcur
  | cons line rest ih =>
    intro cur hcur hls c hc
    have hline : line.length ≤ maxLen := hls line (List.mem_cons_self _ _)
    have hrest : ∀ l ∈ rest, l.length ≤ maxLen :=
      fun l hl => hls l (List.mem_cons_of_mem _ hl)
    rw [packGreedy] at hc
    by_cases h : cur.length + line.length + 1 > maxLen
    · rw [if_pos h] at hc
      rcases List.mem_cons.mp hc with hc | hc
      · rw [hc]; exact hcur
      · exact ih line hline hrest c hc
    · rw [if_neg h] at hc
      have hnew : (cur ++ '\n' :: line).length ≤ maxLen := by
        simp only [List.length_append, List.length_cons]
        omega
      exact ih _ hnew hrest c hc

theorem packGreedy_lines (maxLen : ℕ) (ls : List (List Char)) :
    ∀ cur, (∀ l ∈ ls, '\n' ∉ l) →
      ((packGreedy maxLen cur ls).map splitOnNl).flatten
        = splitOnNl cur ++ ls := by
  induction ls with
  | nil => intro cur _; simp [packGreedy]
  | cons line rest ih =>
    intro cur hls
    have hline : '\n' ∉ line := hls line (List.mem_cons_self _ _)
    have hrest : ∀ l ∈ rest, '\n' ∉ l :=
      fun l hl => hls l (List.mem_cons_of_mem _ hl)
    unfold packGreedy
    by_cases h : cur.length + line.length + 1 > maxLen
    · simp only [if_pos h, List.map_cons, List.flatten_cons]
      rw [ih line hrest, splitOnNl_of_no_nl line hline]
      rfl
    · simp only [if_neg h]
      rw [ih _ hrest, splitOnNl_append_nl, splitOnNl_of_no_nl line hline]
      simp

/-- First loop iteration from the empty initial `current_chunk`: both
branches set `current_chunk` to the first line and append nothing. -/
theorem splitMessageLoop_start (maxLen : ℕ) (l0 : List Char)
    (ls : List (List Char)) :
    splitMessageLoop maxLen (l0 :: ls) [] []
      = splitMessageLoop maxLen ls l0 [] := by
  conv_lhs => rw [splitMessageLoop]
  by_cases h : ([] : List Char).length + l0.length + 1 > maxLen <;> simp [h]

/-- The first chunk `packGreedy` produces starts with `cur`: it is
`cur` itself or `cur` extended by a newline and further lines. -/
theorem packGreedy_headD (maxLen : ℕ) (ls : List (List Char)) :
    ∀ cur, (packGreedy maxLen cur ls).headD [] = cur ∨
      ∃ suffix, (packGreedy maxLen cur ls).headD [] = cur ++ '\n' :: suffix := by
  induction ls with
  | nil => intro cur; left; rfl
  | cons line rest ih =>
    intro cur
    unfold packGreedy
    by_cases h : cur.length + line.length + 1 > maxLen
    · simp only [if_pos h]
      left
      rfl
    · simp only [if_neg h]
      rcases ih (cur ++ '\n' :: line) with hh | ⟨suffix, hh⟩
      · right
        exact ⟨line, hh⟩
      · right
        refine ⟨line ++ '\n' :: suffix, ?_⟩
        rw [hh, List.append_assoc]
        rfl

/-- The first line of the first chunk `packGreedy` produces is `cur`
(for a newline-free `cur`). -/
theorem packGreedy_first_line (maxLen : ℕ) (ls : List (List Char))
    (cur : List Char) (hcur : '\n' ∉ cur) :
    (splitOnNl ((packGreedy maxLen cur ls).headD [])).headD [] = cur := by
  rcases packGreedy_headD maxLen ls cur with h | ⟨suffix, h⟩
  · rw [h, splitOnNl_of_no_nl cur hcur]
    rfl
  · rw [h, splitOnNl_append_nl, splitOnNl_of_no_nl cur hcur]
    rfl

/-- `packGreedy` is greedy: a chunk is only closed because appending
the first line of the next chunk would overflow the budget. -/
theorem packGreedy_chain (maxLen : ℕ) (ls : List (List Char)) :
    ∀ cur, (∀ l ∈ ls, '\n' ∉ l) →
      List.Chain' (fun c1 c2 =>
        maxLen < c1.length + ((splitOnNl c2).headD []).length + 1)
        (packGreedy maxLen cur ls) := by
  induction ls with
  | nil => intro cur _; simp [packGreedy]
  | cons line rest ih =>
    intro cur hnl
    have hline : '\n' ∉ line := hnl line (List.mem_cons_self _ _)
    have hrest : ∀ l ∈ rest, '\n' ∉ l :=
      fun l hl => hnl l (List.mem_cons_of_mem _ hl)
    unfold packGreedy
    by_cases h : cur.length + line.length + 1 > maxLen
    · simp only [if_pos h]
      rw [List.chain'_cons']
      constructor
      · intro y hy
        obtain ⟨c0, cs, hp⟩ : ∃ c0 cs, packGreedy maxLen line rest = c0 :: cs := by
          cases hpp : packGreedy maxLen line rest with
          | nil => exact absurd hpp (packGreedy_ne_nil maxLen rest line)
          | cons c0 cs => exact ⟨c0, cs, rfl⟩
        rw [hp] at hy
        simp only [List.head?_cons, Option.mem_some_iff] at hy
        subst hy
        have hfl := packGreedy_first_line maxLen rest line hline
        rw [hp] at hfl
        simp only [List.headD_cons] at hfl
        rw [hfl]
        exact h
      · exact ih line hrest
    · simp only [if_neg h]
      exact ih _ hrest

/-- C4 counterexample: with `max_chars_per_post = 12` (budget 2) and
input `"\nAAAA"`, the splitter returns the single chunk `"AAAA"`: the
leading empty line is lost, so re-joining does not reproduce the input,
and the chunk exceeds the budget (a single log line is never split, so
an over-long line yields an over-long chunk). -/
theorem split_message_counterexample :
    _split_message 12 ('\n' :: List.replicate 4 'A')
        = [List.replicate 4 'A'] ∧
    joinNl (_split_message 12 ('\n' :: List.replicate 4 'A'))
        ≠ '\n' :: List.replicate 4 'A' ∧
    ¬ (∀ c ∈ _split_message 12 ('\n' :: List.replicate 4 'A'),
        c.length ≤ 12 - 10) := by
  decide

/-- C4 (amended): when every line of the input is non-empty and no
longer than the budget (`max_chars_per_post` minus the 10-character
reserve), the splitter (a) returns chunks whose newline-join reproduces
the input exactly, (b) never exceeds the budget, (c) never splits a
line: the lines of the chunks, in order, are exactly the lines of the
input, and (d) packs consecutive lines greedily: a chunk is only closed
when extending it with the first line of the next chunk (plus the
joining newline) would overflow the budget; and the spec scenario
holds: lines `"A"*50`, `"B"*50` with budget 60 give exactly the two
chunks `"A"*50` and `"B"*50`, while lines `"A"*30`, `"B"*20`, `"C"*25`
pack greedily into the two chunks `"A"*30 ++ "\n" ++ "B"*20` and
`"C"*25`. -/
theorem split_message_amended (max_chars_per_post : ℕ) (text : List Char)
    (hlines : ∀ l ∈ splitOnNl text,
      l ≠ [] ∧ l.length ≤ max_chars_per_post - 10) :
    joinNl (_split_message max_chars_per_post text) = text ∧
    (∀ c ∈ _split_message max_chars_per_post text,
      c.length ≤ max_chars_per_post - 10) ∧
    ((_split_message max_chars_per_post text).map splitOnNl).flatten
      = splitOnNl text ∧
    List.Chain' (fun c1 c2 => max_chars_per_post - 10
        < c1.length + ((splitOnNl c2).headD []).length + 1)
      (_split_message max_chars_per_post text) ∧
    _split_message 70 (List.replicate 50 'A' ++ '\n' :: List.replicate 50 'B')
      = [List.replicate 50 'A', List.replicate 50 'B'] ∧
    _split_message 70 (List.replicate 30 'A' ++ '\n' ::
        (List.replicate 20 'B' ++ '\n' :: List.replicate 25 'C'))
      = [List.replicate 30 'A' ++ '\n' :: List.replicate 20 'B',
         List.replicate 25 'C'] := by
  by_cases hfit : text.length ≤ max_chars_per_post - 10
  · have htext : text ≠ [] := by
      intro hnil
      subst hnil
      exact (hlines [] (by simp [splitOnNl])).1 rfl
    have hchunks : _split_message max_chars_per_post text = [text] := by
      simp [_split_message, hfit, htext]
    rw [hchunks]
    refine ⟨rfl, ?_, by simp, List.chain'_singleton text, by decide, by decide⟩
    intro c hc
    rcases List.mem_singleton.mp hc with h
    rw [h]
    exact hfit
  · obtain ⟨l0, ls, hsplit⟩ : ∃ l0 ls, splitOnNl text = l0 :: ls := by
      cases hs : splitOnNl text with
      | nil => exact absurd hs (splitOnNl_ne_nil text)
      | cons l0 ls => exact ⟨l0, ls, rfl⟩
    have hl0 := hlines l0 (by rw [hsplit]; exact List.mem_cons_self _ _)
    have hlsne : ∀ l ∈ ls, l ≠ [] := fun l hl =>
      (hlines l (by rw [hsplit]; exact List.mem_cons_of_mem _ hl)).1
    have hlslen : ∀ l ∈ ls, l.length ≤ max_chars_per_post - 10 :=
      fun l hl =>
        (hlines l (by rw [hsplit]; exact List.mem_cons_of_mem _ hl)).2
    have hnl : ∀ l ∈ ls, '\n' ∉ l := fun l hl =>
      splitOnNl_no_nl text l (by rw [hsplit]; exact List.mem_cons_of_mem _ hl)
    have hl0nl : '\n' ∉ l0 :=
      splitOnNl_no_nl text l0 (by rw [hsplit]; exact List.mem_cons_self _ _)
    have hchunks : _split_message max_chars_per_post text
        = packGreedy (max_chars_per_post - 10) l0 ls := by
      simp only [_split_message, if_neg hfit]
      rw [hsplit, splitMessageLoop_start,
        splitMessageLoop_eq_packGreedy _ ls l0 [] hl0.1 hlsne,
        List.nil_append]
    rw [hchunks]
    refine ⟨?_, ?_, ?_, ?_, by decide, by decide⟩
    · rw [joinNl_packGreedy, ← hsplit, joinNl_splitOnNl]
    · exact packGreedy_budget _ ls l0 hl0.2 hlslen
    · rw [packGreedy_lines _ ls l0 hnl, splitOnNl_of_no_nl l0 hl0nl, hsplit]
      rfl
    · exact packGreedy_chain _ ls l0 hnl

/-- Witness for the amended C4 at the spec scenario input. -/
theorem split_message_amended_witness :
    _split_message 70 (List.replicate 50 'A' ++ '\n' :: List.replicate 50 'B')
      = [List.replicate 50 'A', List.replicate 50 'B'] :=
  (split_message_amended 70
    (List.replicate 50 'A' ++ '\n' :: List.replicate 50 'B')
    (by decide)).2.2.2.2.1

/-! ## `services/log_sync.py` — log buffer: append and atomic drain

`_add_to_buffer` appends one line under `_buffer_lock`; `_flush_buffer`
drains by copy-and-clear under the same lock.  Both critical sections
are `await`-free, so each is one atomic step of the event loop; a run
of the service is an arbitrary interleaving of these steps. -/

/-- One atomic buffer operation: an `_add_to_buffer(line)` append, or a
flush's drain (the copy-and-clear critical section of
`_flush_buffer`). -/
inductive BufOp where
  | append (line : List Char)
  | drain
deriving Repr, DecidableEq

/-- State of a buffer run: the live `_log_buffer` plus the batches the
drains have taken so far (each batch is what one flush goes on to
send). An empty-buffer drain takes no batch (`_flush_buffer` returns
at once). -/
structure BufRun where
  buffer : List (List Char)
  batches : List (List (List Char))
deriving Repr, DecidableEq

def bufStep (s : BufRun) : BufOp → BufRun
  | .append line => { s with buffer := s.buffer ++ [line] }
  | .drain =>
    if s.buffer = [] then s
    else { buffer := [], batches := s.batches ++ [s.buffer] }

def runBuf (s : BufRun) (ops : List BufOp) : BufRun :=
  ops.foldl bufStep s

/-- The lines appended by a run of operations, in order. -/
def appendedLines (ops : List BufOp) : List (List Char) :=
  ops.filterMap fun
    | .append line => some line
    | .drain => none

theorem runBuf_invariant (ops : List BufOp) :
    ∀ s : BufRun,
      (runBuf s ops).batches.flatten ++ (runBuf s ops).buffer
        = s.batches.flatten ++ s.buffer ++ appendedLines ops := by
  induction ops with
  | nil => intro s; simp [runBuf, appendedLines]
  | cons op rest ih =>
    intro s
    cases op with
    | append line =>
      rw [runBuf, List.foldl_cons, ← runBuf]
      rw [ih (bufStep s (.append line))]
      simp [bufStep, appendedLines, List.filterMap_cons]
    | drain =>
      rw [runBuf, List.foldl_cons, ← runBuf]
      rw [ih (bufStep s .drain)]
      have hd : (bufStep s .drain).batches.flatten ++ (bufStep s .drain).buffer
          = s.batches.flatten ++ s.buffer := by
        unfold bufStep
        by_cases h : s.buffer = []
        · simp [h]
        · simp [h]
      rw [hd]
      simp [appendedLines, List.filterMap_cons]

/-- C6: for every interleaving of appends and drains started from the
empty buffer, the drained batches in order, followed by what remains
in the buffer, are exactly the appended lines in order: every appended
line is drained by exactly one flush (or still buffered at the end),
never lost and never duplicated. -/
theorem buffer_drain_atomic (ops : List BufOp) :
    (runBuf ⟨[], []⟩ ops).batches.flatten ++ (runBuf ⟨[], []⟩ ops).buffer
      = appendedLines ops := by
  have h := runBuf_invariant ops ⟨[], []⟩
  simpa using h

/-! ## `services/log_sync.py` — `_flush_buffer`: rotation and posting -/

/-- The `LogSyncService` fields `_flush_buffer` touches: the buffer,
`_current_thread` (by id), `_current_date`, and the persisted state. -/
structure LogSyncState where
  log_buffer : List (List Char)
  current_thread : Option ℕ
  current_date : Option String
  persisted : BotState
deriving Repr, DecidableEq

/-- The externals one `_flush_buffer` call consults: the resolved
current local date (`_get_current_date()`), the outcome of
`_create_daily_thread()` should rotation be attempted (`none` =
creation failed), and the configured `max_chars_per_post`. -/
structure FlushEnv where
  today : String
  new_thread : Option ℕ
  max_chars_per_post : ℕ
deriving Repr, DecidableEq

/-- Externally visible actions of one flush, in program order: a
`update_logs` persistence write, or one chunk posted to a thread. -/
inductive FlushEvent where
  | persist (enabled : Bool) (thread_id : ℕ) (date : String)
  | post (thread_id : ℕ) (chunk : List Char)
deriving Repr, DecidableEq

/-- `LogSyncService._flush_buffer()`: drain (copy-and-clear) under the
lock, return if nothing was buffered or no thread is set; re-check the
date and rotate (abort on creation failure); newline-join the drained
lines, split, and post each chunk to `_current_thread`.  Post events
record the thread targeted by each `send`; the per-chunk error
handling does not change which thread is targeted. -/
def _flush_buffer (env : FlushEnv) (s : LogSyncState) :
    LogSyncState × List FlushEvent :=
  if s.log_buffer = [] then (s, [])
  else
    let logs := s.log_buffer
    let s1 := { s with log_buffer := ([] : List (List Char)) }
    match s1.current_thread with
    | none => (s1, [])
    | some tid =>
      if s1.current_date ≠ some env.today then
        let s2 := { s1 with
                      current_date := some env.today
                      current_thread := env.new_thread }
        match env.new_thread with
        | none => (s2, [])
        | some nid =>
          let s3 := { s2 with
                        persisted := update_logs true (some nid)
                          (some env.today) s2.persisted }
          (s3, FlushEvent.persist true nid env.today ::
            (_split_message env.max_chars_per_post (joinNl logs)).map
              (FlushEvent.post nid))
      else
        (s1, (_split_message env.max_chars_per_post (joinNl logs)).map
          (FlushEvent.post tid))

/-- C5: (1) an empty buffer makes the flush a no-op; (2) with a
non-empty buffer and a recorded date differing from today, the flush
rotates: on creation failure it aborts with no posts and the drained
lines dropped; on success it persists the new `{threadId, date}` as
the first event, before every post, every post of the flush targets
the new thread id, and the new id is stored as `_current_thread`;
(3) any flush from a state whose recorded date is current posts only
to the stored thread id — so later flushes keep targeting the thread
installed by the rotation. -/
theorem flush_buffer_spec (env : FlushEnv) (s : LogSyncState) :
    (s.log_buffer = [] → _flush_buffer env s = (s, [])) ∧
    (∀ tid, s.log_buffer ≠ [] → s.current_thread = some tid →
      s.current_date ≠ some env.today →
      (env.new_thread = none →
        _flush_buffer env s
          = ({ s with
                log_buffer := []
                current_thread := none
                current_date := some env.today }, [])) ∧
      (∀ nid, env.new_thread = some nid →
        _flush_buffer env s
          = ({ s with
                log_buffer := []
                current_thread := some nid
                current_date := some env.today
                persisted := update_logs true (some nid) (some env.today)
                  s.persisted },
             FlushEvent.persist true nid env.today ::
               (_split_message env.max_chars_per_post
                 (joinNl s.log_buffer)).map (FlushEvent.post nid)))) ∧
    (∀ tid, s.current_thread = some tid →
      s.current_date = some env.today →
      ∀ ev ∈ (_flush_buffer env s).2,
        ∃ chunk, ev = FlushEvent.post tid chunk) := by
  refine ⟨fun hempty => ?_, fun tid hne hth hdate => ⟨fun hfail => ?_, fun nid hok => ?_⟩,
    fun tid hth hdate ev hev => ?_⟩
  · simp [_flush_buffer, hempty]
  · simp only [_flush_buffer, if_neg hne, hth, hfail]
    simp [hdate]
  · simp only [_flush_buffer, if_neg hne, hth, hok]
    simp [hdate]
  · by_cases hne : s.log_buffer = []
    · simp [_flush_buffer, hne] at hev
    · simp only [_flush_buffer, if_neg hne, hth] at hev
      rw [if_neg (by simp [hdate])] at hev
      rcases List.mem_map.mp hev with ⟨chunk, _, hchunk⟩
      exact ⟨chunk, hchunk.symm⟩

/-! ## `services/websocket_client.py` — log extraction -/

/-- Parsed JSON values as Python's `json.loads` yields them for the
stream payloads (str, int, bool, null, list, dict).  Floating-point
payload numbers do not occur in the streamed envelopes and are not
modelled. -/
inductive PyJson where
  | str (s : String)
  | num (n : ℤ)
  | bool (b : Bool)
  | null
  | list (xs : List PyJson)
  | dict (fields : List (String × PyJson))

/-- One character of `json.dumps` string escaping (quote and
backslash; control characters do not occur in the payloads of
interest). -/
def jsonEscapeChar (c : Char) : String :=
  if c = '\\' then "\\\\"
  else if c = '"' then "\\\""
  else String.singleton c

def jsonEscape (s : String) : String :=
  String.join (s.toList.map jsonEscapeChar)

mutual
/-- `json.dumps` with its default separators: the canonical textual
form the dict fallback of `_extract_log_line` produces. -/
def jsonDumps : PyJson → String
  | .str s => "\"" ++ jsonEscape s ++ "\""
  | .num n => toString n
  | .bool b => if b then "true" else "false"
  | .null => "null"
  | .list xs => "[" ++ jsonDumpsList xs ++ "]"
  | .dict fs => "\x7b" ++ jsonDumpsFields fs ++ "\x7d"

def jsonDumpsList : List PyJson → String
  | [] => ""
  | [x] => jsonDumps x
  | x :: y :: xs => jsonDumps x ++ ", " ++ jsonDumpsList (y :: xs)

def jsonDumpsFields : List (String × PyJson) → String
  | [] => ""
  | [(k, v)] => "\"" ++ jsonEscape k ++ "\": " ++ jsonDumps v
  | (k, v) :: f :: fs =>
    "\"" ++ jsonEscape k ++ "\": " ++ jsonDumps v ++ ", "
      ++ jsonDumpsFields (f :: fs)
end

/-- Python `str(data)` for the remaining payload shapes (the final
`else` branch of `_extract_log_line`).  No claim depends on this
branch; numbers and booleans follow Python's `str`, other shapes are
approximated by their JSON form. -/
def pyStr : PyJson → String
  | .num n => toString n
  | .bool b => if b then "True" else "False"
  | v => jsonDumps v

/-- The fixed priority list of `_extract_log_line`. -/
def _extract_log_line_keys : List String :=
  ["message", "msg", "log", "line", "text", "data"]

/-- The `for key in (...)` probe: the first listed key present in the
dict with a string value (`key in data and isinstance(data[key],
str)`). -/
def firstStringField (fields : List (String × PyJson)) :
    List String → Option String
  | [] => none
  | k :: ks =>
    match fields.lookup k with
    | some (.str s) => some s
    | _ => firstStringField fields ks

/-- `WebSocketLogClient._extract_log_line(data)`. -/
def _extract_log_line : PyJson → String
  | .str s => s
  | .dict fields =>
    match firstStringField fields _extract_log_line_keys with
    | some s => s
    | none => jsonDumps (.dict fields)
  | .null => ""
  | v => pyStr v

/-- `message.get(key, default)` on a parsed JSON object. -/
def pyGet (fields : List (String × PyJson)) (k : String)
    (default : PyJson) : PyJson :=
  (fields.lookup k).getD default

/-- `WebSocketLogClient._process_message` on a parsed JSON-object
envelope: the log lines handed to the registered callback, in order.
A line is delivered only when non-empty (`if log_line and
self._log_callback`); the callback is modelled as registered.
`status` is ignored and `error` only prints. -/
def _process_message (fields : List (String × PyJson)) : List String :=
  match pyGet fields "type" (.str "") with
  | .str t =>
    if t = "console" then
      let log_line := _extract_log_line (pyGet fields "data" (.str ""))
      if log_line ≠ "" then [log_line] else []
    else if t = "logs" then
      match pyGet fields "logs" (pyGet fields "data" (.list [])) with
      | .list entries =>
        (entries.map _extract_log_line).filter (fun l => l ≠ "")
      | _ => []
    else []
  | _ => []

/-- C8: the extraction rule returns a string payload unchanged; for a
dict payload, the first present string field in the priority order
`message, msg, log, line, text, data`, falling back to the canonical
JSON serialization when no listed field holds a string; a null payload
yields the empty string, which `_process_message` then drops (the
callback is not invoked); and the spec scenario: a
`{"type": "console", "data": "Server started"}` envelope invokes the
callback exactly once, with exactly `"Server started"`. -/
theorem extract_log_line_spec :
    (∀ s, _extract_log_line (.str s) = s) ∧
    (∀ fields, _extract_log_line (.dict fields)
      = (firstStringField fields _extract_log_line_keys).getD
          (jsonDumps (.dict fields))) ∧
    _extract_log_line .null = "" ∧
    (∀ fields, pyGet fields "type" (.str "") = .str "console" →
      pyGet fields "data" (.str "") = .null →
      _process_message fields = []) ∧
    _process_message
        [("type", .str "console"), ("data", .str "Server started")]
      = ["Server started"] := by
  refine ⟨fun s => rfl, fun fields => ?_, rfl, fun fields htype hdata => ?_, ?_⟩
  · rw [_extract_log_line]
    cases firstStringField fields _extract_log_line_keys with
    | none => rfl
    | some s => rfl
  · rw [_process_message, htype, hdata]
    simp [_extract_log_line]
  · rfl
